import Mathlib

/-!
Verification of the semantic embedding index subsystem of the memory-journal
MCP server.  The subsystem lives in `src/vector_search.py`
(`VectorSearchManager`) and in a duplicated copy inside `src/server.py`; the
two copies agree except where noted (exception handling of the bootstrap).

The shallow embedding below models:
  * the Python dict `entry_id_map` as an association list with
    insert-or-replace semantics (`dictGet` / `dictInsert`);
  * the SQLite table `memory_journal_embeddings`, restricted to the single
    configured `embedding_model`, as an association list keyed by `entry_id`
    with `INSERT OR REPLACE` as `dbUpsert`;
  * vectors as lists of rationals (`Vec`); the float32 values of the source
    are abstracted to `ℚ`, which preserves the ordering/filtering logic the
    claims are about;
  * the external embedding model (`self.model.encode`) and
    `faiss.normalize_L2` as function parameters `embed` and `norm`;
  * `faiss.IndexFlatIP` as a list of stored vectors together with the exact
    top-k inner-product search `faissSearch`;
  * failures of the external steps (embedding generation, SQLite I/O, FAISS
    append) as explicit failure-injection parameters, since whether those
    steps raise is environmental.
-/

namespace MemoryJournal

/-- Vectors: the float32 arrays of the source, abstracted to rationals. -/
abbrev Vec := List ℚ

/-- Lookup in a Python dict modelled as an association list
(first binding wins; `dictInsert` keeps at most one binding per key).
Models `self.entry_id_map.get(idx)`. -/
def dictGet : List (Nat × Int) → Nat → Option Int
  | [], _ => none
  | p :: t, k => if p.1 = k then some p.2 else dictGet t k

/-- Insert-or-replace in a Python dict modelled as an association list:
replacing keeps the binding's position, a fresh key is appended (Python
dicts preserve insertion order).  Models `self.entry_id_map[i] = entry_id`. -/
def dictInsert : List (Nat × Int) → Nat → Int → List (Nat × Int)
  | [], k, v => [(k, v)]
  | p :: t, k, v => if p.1 = k then (k, v) :: t else p :: dictInsert t k v

/-- The `INSERT OR REPLACE INTO memory_journal_embeddings` write for the
configured model: the unique constraint on `(entry_id, embedding_model)`
makes it an idempotent upsert keyed by `entry_id`. -/
def dbUpsert : List (Int × Vec) → Int → Vec → List (Int × Vec)
  | [], e, v => [(e, v)]
  | r :: t, e, v => if r.1 = e then (e, v) :: t else r :: dbUpsert t e v

/-- In-memory state of one `VectorSearchManager` instance: the `initialized`
flag, the FAISS index contents in insertion order (`ntotal` is the length),
the position-to-entry-id dict, and the durable table contents for the
configured model. -/
structure ManagerState where
  initialized : Bool
  faiss_index : List Vec
  entry_id_map : List (Nat × Int)
  dbTable : List (Int × Vec)
deriving DecidableEq, Repr

/-- Score-descending order on (id, score) pairs, used both for the FAISS
search output and for `results.sort(key=lambda x: x[1], reverse=True)`. -/
def scoreDesc {α : Type} (a b : α × ℚ) : Prop := b.2 ≤ a.2

instance {α : Type} : DecidableRel (@scoreDesc α) :=
  fun a b => inferInstanceAs (Decidable (b.2 ≤ a.2))

instance {α : Type} : IsTotal (α × ℚ) scoreDesc :=
  ⟨fun a b => le_total b.2 a.2⟩

instance {α : Type} : IsTrans (α × ℚ) scoreDesc :=
  ⟨fun _ _ _ hab hbc => le_trans hbc hab⟩

/-- Ascending entry-id order on durable rows: models `ORDER BY entry_id`. -/
def entryIdAsc (a b : Int × Vec) : Prop := a.1 ≤ b.1

instance : DecidableRel entryIdAsc :=
  fun a b => inferInstanceAs (Decidable (a.1 ≤ b.1))

/-- Inner product of two vectors, the score computed by
`faiss.IndexFlatIP.search` against each stored vector. -/
def ipScore (q v : Vec) : ℚ := (List.zipWith (fun a b => a * b) q v).sum

/-- Modelled from the spec (the FAISS library is external to the source
tree): `faiss.IndexFlatIP.search(q, k)` is exact search — it scores every
stored vector by inner product and returns `min k ntotal` pairs
`(position, score)` sorted by score descending (§4.3 of the spec; ties go to
the lower position via sort stability).  With `k ≤ ntotal`, as in every call
site here, no `-1` padding positions occur. -/
def faissSearch (index : List Vec) (q : Vec) (k : Nat) : List (Nat × ℚ) :=
  (((index.map (ipScore q)).enum).insertionSort scoreDesc).take k

/-- The body of `_load_existing_embeddings` (vector_search.py lines 145-179 =
server.py lines 488-519): scan the table for the configured model ordered by
`entry_id`, decode each vector, L2-normalize, add all of them to the FAISS
index, then set `entry_id_map[i] = entry_id` for each row index `i` in a
loop over `enumerate(entry_ids)` (the dict starts empty at bootstrap).
Returns the index contents and the position map. -/
def load_existing_embeddings (table : List (Int × Vec)) (norm : Vec → Vec) :
    List Vec × List (Nat × Int) :=
  let rows := table.insertionSort entryIdAsc
  let vecs := rows.map (fun r => norm r.2)
  let m := ((rows.map (fun r => r.1)).enum).foldl (fun m p => dictInsert m p.1 p.2) []
  (vecs, m)

/-- The successful bootstrap body of `_ensure_initialized`: create an empty
FAISS index, load existing embeddings, set `initialized = True`. -/
def bootstrap (table : List (Int × Vec)) (norm : Vec → Vec) : ManagerState :=
  let lm := load_existing_embeddings table norm
  { initialized := true, faiss_index := lm.1, entry_id_map := lm.2, dbTable := table }

/-- Which step of `add_entry_embedding`'s try block raises, if any:
embedding generation (step 2), the SQLite upsert (step 3), or the FAISS
append (step 4, e.g. a dimension mismatch).  Whether a step raises is
environmental, so it is injected as a parameter. -/
inductive AddFailure where
  | genEmbed
  | dbStore
  | indexAdd
deriving DecidableEq, Repr

/-- The try block of `add_entry_embedding` (vector_search.py lines 230-257):
generate the embedding, normalize a copy, upsert the *unnormalized* vector
into the durable table, append the normalized vector to the FAISS index,
then record `entry_id_map[ntotal - 1] = entry_id`.  Returns the state as
mutated so far and the failure raised, if any: a failure at the FAISS-append
step leaves the durable upsert in place. -/
def addEntryTry (st : ManagerState) (entry_id : Int) (content : String)
    (embed : String → Vec) (norm : Vec → Vec) (failAt : Option AddFailure) :
    ManagerState × Option AddFailure :=
  match failAt with
  | some .genEmbed => (st, some .genEmbed)
  | some .dbStore => (st, some .dbStore)
  | some .indexAdd =>
      ({ st with dbTable := dbUpsert st.dbTable entry_id (embed content) }, some .indexAdd)
  | none =>
      let e := embed content
      let en := norm e
      let db' := dbUpsert st.dbTable entry_id e
      let index' := st.faiss_index ++ [en]
      let pos := index'.length - 1
      ({ st with dbTable := db', faiss_index := index',
                 entry_id_map := dictInsert st.entry_id_map pos entry_id }, none)

/-- `add_entry_embedding(entry_id, content)` (vector_search.py lines 214-261 =
server.py lines 539-577): after `_ensure_initialized`, return `False` if not
initialized; otherwise run the try block, and catch any failure (logging it
to stderr) as the return value `False`.  The total return type records that
no failure of steps 2-4 propagates to the caller. -/
def add_entry_embedding (st : ManagerState) (entry_id : Int) (content : String)
    (embed : String → Vec) (norm : Vec → Vec) (failAt : Option AddFailure) :
    ManagerState × Bool :=
  if st.initialized = false then (st, false)
  else
    match addEntryTry st entry_id content embed norm failAt with
    | (st', none) => (st', true)
    | (st', some _) => (st', false)

/-- `semantic_search(query, limit, similarity_threshold)` (vector_search.py
lines 263-313 = server.py lines 579-611): return `[]` if not initialized or
the index is empty; generate and normalize the query embedding (a raise is
caught and yields `[]`, injected as `genRaises`); search the FAISS index for
`min(limit * 2, ntotal)` candidates; keep hits with `score >=
similarity_threshold` whose position maps to a truthy (nonzero, present)
entry id; re-sort by score descending and truncate to `limit`. -/
def semantic_search (st : ManagerState) (embed : String → Vec) (norm : Vec → Vec)
    (query : String) (limit : Nat) (threshold : ℚ) (genRaises : Bool) :
    List (Int × ℚ) :=
  if st.initialized = false ∨ st.faiss_index.length = 0 then []
  else if genRaises then []
  else
    let query_norm := norm (embed query)
    let hits := faissSearch st.faiss_index query_norm (min (limit * 2) st.faiss_index.length)
    let results := hits.filterMap (fun p =>
      if threshold ≤ p.2 then
        match dictGet st.entry_id_map p.1 with
        | some e => if e ≠ 0 then some (e, p.2) else none
        | none => none
      else none)
    (results.insertionSort scoreDesc).take limit

/-- One operation against an initialized manager: a (possibly failing)
ingest, or a search (searches never mutate manager state). -/
inductive VSOp where
  | ingest (entry_id : Int) (content : String) (failAt : Option AddFailure)
  | search (query : String) (limit : Nat) (threshold : ℚ)
deriving Repr

/-- Run a sequence of operations against the manager state. -/
def runOps (embed : String → Vec) (norm : Vec → Vec) :
    ManagerState → List VSOp → ManagerState
  | st, [] => st
  | st, .ingest e c f :: rest =>
      runOps embed norm (add_entry_embedding st e c embed norm f).1 rest
  | st, .search _ _ _ :: rest => runOps embed norm st rest

/-- Entry ids of the ingest operations in a run, in order. -/
def ingestIds : List VSOp → List Int
  | [] => []
  | .ingest e _ _ :: rest => e :: ingestIds rest
  | .search _ _ _ :: rest => ingestIds rest

/-!
Concurrency model for `_ensure_initialized` (vector_search.py lines 87-143 =
server.py lines 431-486).  asyncio schedules cooperatively: code between two
`await` points runs atomically on the event loop.  Each concurrent caller is
a task stepping through the program counters below; a scheduler is a list of
task indices.  The model covers the success path (dependencies importable,
bootstrap body does not raise); the failure path of a single call is modelled
separately for the claim about `Failed`-state handling.

Program counters of one `_ensure_initialized` call:
  * `start`: about to run `if self.initialized: return` and, if false, to
    request `self._initialization_lock` (no await before the request);
  * `waitLock`: suspended in the lock's acquire;
  * `critical`: holding the lock, about to run the double-check of
    `self.initialized` and the `VECTOR_SEARCH_AVAILABLE` / dependency checks
    (no await separates these);
  * `booting`: holding the lock, running the bootstrap body (model load,
    FAISS index construction, embedding scan) across its awaits, about to set
    `self.initialized = True` and release the lock;
  * `done`: returned.
-/

/-- Program counter of one concurrent `_ensure_initialized` caller. -/
inductive TaskPC where
  | start
  | waitLock
  | critical
  | booting
  | done
deriving DecidableEq, Repr

/-- Event-loop state shared by all concurrent `_ensure_initialized` callers:
module availability, the `initialized` flag, the holder of
`_initialization_lock` (if held), every task's program counter, and a count
of completed executions of the bootstrap body. -/
structure LoopState where
  avail : Bool
  initialized : Bool
  lockHolder : Option Nat
  pcs : Nat → TaskPC
  bootCount : Nat

/-- Replace task `i`'s program counter. -/
def setPC (s : LoopState) (i : Nat) (pc : TaskPC) : LoopState :=
  { s with pcs := fun j => if j = i then pc else s.pcs j }

/-- One atomic scheduler step of task `i` (a task that is blocked on the
lock, or already returned, does not move). -/
def step (s : LoopState) (i : Nat) : LoopState :=
  match s.pcs i with
  | .start =>
      if s.initialized then setPC s i .done else setPC s i .waitLock
  | .waitLock =>
      match s.lockHolder with
      | none => { setPC s i .critical with lockHolder := some i }
      | some _ => s
  | .critical =>
      if s.initialized then { setPC s i .done with lockHolder := none }
      else if s.avail then setPC s i .booting
      else { setPC s i .done with lockHolder := none }
  | .booting =>
      { setPC s i .done with
          lockHolder := none, initialized := true, bootCount := s.bootCount + 1 }
  | .done => s

/-- Run a scheduler: step the listed tasks in order. -/
def runSched (s : LoopState) : List Nat → LoopState
  | [] => s
  | i :: rest => runSched (step s i) rest

/-- Fresh manager: nobody initialized, lock free, every task about to call
`_ensure_initialized`. -/
def initLoop (avail : Bool) : LoopState :=
  { avail := avail, initialized := false, lockHolder := none,
    pcs := fun _ => .start, bootCount := 0 }

/-!
Single-call model of `_ensure_initialized` for the bootstrap-failure claim.
The two duplicated copies differ exactly in their `except` clause:
vector_search.py lines 138-143 set `self.initialized = False` and raise
`VectorSearchError(f"Initialization failed: {e}")`, while server.py lines
482-486 set `self.initialized = False` and fall off the end of the function,
returning normally.
-/

/-- Modelled from the spec: the error taxonomy of `exceptions.py`, which
vector_search.py imports but which is absent from the source tree; only the
initialization-failure error (`VectorSearchError`, the spec's
`InitializationFailed`) is needed here. -/
inductive VSError where
  | initializationFailed
deriving DecidableEq, Repr

/-- Outcome of one uncontended `_ensure_initialized` call: the `initialized`
flag afterwards, the error propagated to the caller (if any), and whether
the bootstrap body was entered. -/
structure EnsureResult where
  nowInitialized : Bool
  raised : Option VSError
  ranBootstrap : Bool
deriving DecidableEq, Repr

/-- One uncontended `_ensure_initialized` call, vector_search.py copy (lines
87-143): fast path on `initialized`; return doing nothing if the
dependencies are unavailable; otherwise run the bootstrap body —
`bootRaises` injects whether it raises.  On a raise, the except clause sets
`initialized = False` and raises `VectorSearchError`. -/
def ensureInitializedVS (initialized avail bootRaises : Bool) : EnsureResult :=
  if initialized then ⟨true, none, false⟩
  else if !avail then ⟨false, none, false⟩
  else if bootRaises then ⟨false, some .initializationFailed, true⟩
  else ⟨true, none, true⟩

/-- One uncontended `_ensure_initialized` call, server.py copy (lines
431-486): identical except that its except clause (lines 482-486) sets
`initialized = False` and returns normally — the error is swallowed, not
re-raised. -/
def ensureInitializedServer (initialized avail bootRaises : Bool) : EnsureResult :=
  if initialized then ⟨true, none, false⟩
  else if !avail then ⟨false, none, false⟩
  else if bootRaises then ⟨false, none, true⟩
  else ⟨true, none, true⟩

/-!
Byte-level model of the vector serialization.  The source stores vectors
with `pickle.dumps(embedding)` (vector_search.py line 245) and decodes them
with `pickle.loads(embedding_blob)` (line 161); pickle is a Python-specific
container format.  The model keeps pickle's shape — a protocol header, the
element payload, and a STOP opcode — abstracting the numpy-specific opcodes
into a fixed two-byte header.  The properties preserved are the ones the
codec claims turn on: the blob is longer than `4 * dimension` (framing
overhead), decoding takes *no* expected-dimension argument, and no
length-versus-dimension validation happens (`pickle.loads` succeeds on any
well-formed pickle blob).  Element values are float32 bit patterns,
little-endian as numpy serializes them on the source host.
-/

/-- Four little-endian bytes of a 32-bit pattern. -/
def f32le (x : Nat) : List Nat :=
  [x % 256, x / 256 % 256, x / 2 ^ 16 % 256, x / 2 ^ 24 % 256]

/-- Model of `pickle.dumps` on a float32 numpy array: protocol header
(`PROTO 4`), the element bytes, a STOP opcode. -/
def pickleDumps (v : List Nat) : List Nat :=
  128 :: 4 :: ((v.map f32le).flatten ++ [46])

/-- Group bytes into 32-bit little-endian values; fails on an incomplete
trailing group. -/
def bytesToF32 : List Nat → Option (List Nat)
  | [] => some []
  | b0 :: b1 :: b2 :: b3 :: rest =>
      (bytesToF32 rest).map
        (fun vs => (b0 + 256 * b1 + 2 ^ 16 * b2 + 2 ^ 24 * b3) :: vs)
  | _ => none

/-- Model of `pickle.loads` on a stored embedding blob: check the protocol
header and the STOP opcode, then read the element payload.  Note that it
takes no expected-dimension argument — the source's decode site
(`embedding = pickle.loads(embedding_blob)`) never consults the stored
`embedding_dimension` column. -/
def pickleLoads (b : List Nat) : Option (List Nat) :=
  match b with
  | 128 :: 4 :: rest =>
      if rest.getLast? = some 46 then bytesToF32 rest.dropLast else none
  | _ => none

/-- The length-validation property the spec's codec contract attributes to
decoding: any blob whose length differs from `dimension * 4` is rejected. -/
def decodeChecksLength : Prop :=
  ∀ (b : List Nat) (d : Nat), b.length ≠ d * 4 → pickleLoads b = none

/-!  Theorems. -/

/-- Everything that survives `semantic_search`'s result loop passed the
threshold comparison and the truthiness filter on the looked-up entry id. -/
lemma mem_semantic_search {st : ManagerState} {embed : String → Vec} {norm : Vec → Vec}
    {query : String} {limit : Nat} {threshold : ℚ} {genRaises : Bool} {p : Int × ℚ}
    (hp : p ∈ semantic_search st embed norm query limit threshold genRaises) :
    threshold ≤ p.2 ∧ p.1 ≠ 0 := by
  simp only [semantic_search] at hp
  split at hp
  · simp at hp
  split at hp
  · simp at hp
  have hp1 := (List.perm_insertionSort scoreDesc _).subset (List.mem_of_mem_take hp)
  rcases List.mem_filterMap.1 hp1 with ⟨a, -, hfa⟩
  by_cases hth : threshold ≤ a.2
  · rw [if_pos hth] at hfa
    cases hdg : dictGet st.entry_id_map a.1 with
    | none => rw [hdg] at hfa; simp at hfa
    | some e =>
        rw [hdg] at hfa
        have hfa' : (if e ≠ 0 then some (e, a.2) else none) = some p := hfa
        by_cases he : e ≠ 0
        · rw [if_pos he] at hfa'
          obtain rfl : (e, a.2) = p := by simpa using hfa'
          exact ⟨hth, he⟩
        · rw [if_neg he] at hfa'; simp at hfa'
  · rw [if_neg hth] at hfa; simp at hfa

/-- C2: every `(entry_id, score)` pair returned by `semantic_search` has
`score >= similarity_threshold`; no returned score is strictly below the
threshold. -/
theorem semantic_search_threshold_correct (st : ManagerState) (embed : String → Vec)
    (norm : Vec → Vec) (query : String) (limit : Nat) (threshold : ℚ) (genRaises : Bool) :
    ∀ p ∈ semantic_search st embed norm query limit threshold genRaises, threshold ≤ p.2 :=
  fun _ hp => (mem_semantic_search hp).1

theorem semantic_search_threshold_correct_witness :
    ((5 : ℤ), (0 : ℚ)) ∈
      semantic_search ⟨true, [[]], [(0, 5)], []⟩ (fun _ => []) (fun v => v) "q" 1 0 false ∧
    (0 : ℚ) ≤ ((5 : ℤ), (0 : ℚ)).2 :=
  ⟨by decide,
   semantic_search_threshold_correct ⟨true, [[]], [(0, 5)], []⟩ (fun _ => []) (fun v => v)
     "q" 1 0 false ((5 : ℤ), (0 : ℚ)) (by decide)⟩

/-- C4: the list returned by `semantic_search` is sorted non-increasing in
score (it is re-sorted by score descending after threshold filtering) and is
truncated to at most `limit` elements. -/
theorem semantic_search_ranking (st : ManagerState) (embed : String → Vec)
    (norm : Vec → Vec) (query : String) (limit : Nat) (threshold : ℚ) (genRaises : Bool) :
    List.Sorted scoreDesc (semantic_search st embed norm query limit threshold genRaises) ∧
    (semantic_search st embed norm query limit threshold genRaises).length ≤ limit := by
  simp only [semantic_search]
  split
  · exact ⟨List.sorted_nil, by simp⟩
  split
  · exact ⟨List.sorted_nil, by simp⟩
  exact ⟨List.Pairwise.sublist (List.take_sublist _ _)
      (List.sorted_insertionSort scoreDesc _),
    List.length_take_le _ _⟩

/-- C9: `semantic_search` silently drops any hit whose position maps to the
entry id `0` or is absent from `entry_id_map` (the Python truthiness check
`if entry_id:` is false for both `0` and `None`), so no returned pair ever
carries entry id `0` — an embedding ingested under `entry_id = 0` can never
appear in any result. -/
theorem semantic_search_drops_zero_entry_id (st : ManagerState) (embed : String → Vec)
    (norm : Vec → Vec) (query : String) (limit : Nat) (threshold : ℚ) (genRaises : Bool) :
    ∀ p ∈ semantic_search st embed norm query limit threshold genRaises, p.1 ≠ 0 :=
  fun _ hp => (mem_semantic_search hp).2

theorem semantic_search_drops_zero_entry_id_witness :
    ((5 : ℤ), (0 : ℚ)) ∈
      semantic_search ⟨true, [[], []], [(0, 0), (1, 5)], []⟩ (fun _ => []) (fun v => v)
        "q" 2 0 false ∧
    ((5 : ℤ), (0 : ℚ)).1 ≠ 0 :=
  ⟨by decide,
   semantic_search_drops_zero_entry_id ⟨true, [[], []], [(0, 0), (1, 5)], []⟩ (fun _ => [])
     (fun v => v) "q" 2 0 false ((5 : ℤ), (0 : ℚ)) (by decide)⟩

/-- C6: a failure in any of `add_entry_embedding`'s embedding-generation,
durable-upsert, or index-append steps is raised inside the try block and
reported as the return value `false`; the call's total return type carries
no exception channel, so ingestion failure never aborts the caller. -/
theorem add_entry_embedding_failure_nonfatal (st : ManagerState) (entry_id : Int)
    (content : String) (embed : String → Vec) (norm : Vec → Vec) (f : AddFailure) :
    (addEntryTry st entry_id content embed norm (some f)).2 = some f ∧
    (add_entry_embedding st entry_id content embed norm (some f)).2 = false := by
  refine ⟨?_, ?_⟩
  · cases f <;> rfl
  · unfold add_entry_embedding
    split
    · rfl
    · cases f <;> rfl

/-- C10: whenever `add_entry_embedding` returns `false`, the FAISS index and
`entry_id_map` are exactly as before the call (the append and the map update
happen together or not at all), while a failure at the index-append step
leaves the already-performed durable upsert in place — the database is not
rolled back. -/
theorem add_entry_embedding_failure_atomicity (st : ManagerState) (entry_id : Int)
    (content : String) (embed : String → Vec) (norm : Vec → Vec)
    (failAt : Option AddFailure)
    (hinit : st.initialized = true)
    (hfail : (add_entry_embedding st entry_id content embed norm failAt).2 = false) :
    (add_entry_embedding st entry_id content embed norm failAt).1.faiss_index =
      st.faiss_index ∧
    (add_entry_embedding st entry_id content embed norm failAt).1.entry_id_map =
      st.entry_id_map ∧
    (failAt = some .indexAdd →
      (add_entry_embedding st entry_id content embed norm failAt).1.dbTable =
        dbUpsert st.dbTable entry_id (embed content)) := by
  cases failAt with
  | none => simp [add_entry_embedding, addEntryTry, hinit] at hfail
  | some f => cases f <;> simp [add_entry_embedding, addEntryTry, hinit]

theorem add_entry_embedding_failure_atomicity_witness :
    (add_entry_embedding ⟨true, [], [], []⟩ 3 "x" (fun _ => []) (fun v => v)
        (some AddFailure.indexAdd)).1.faiss_index =
      (⟨true, [], [], []⟩ : ManagerState).faiss_index ∧
    (add_entry_embedding ⟨true, [], [], []⟩ 3 "x" (fun _ => []) (fun v => v)
        (some AddFailure.indexAdd)).1.entry_id_map =
      (⟨true, [], [], []⟩ : ManagerState).entry_id_map ∧
    (some AddFailure.indexAdd = some AddFailure.indexAdd →
      (add_entry_embedding ⟨true, [], [], []⟩ 3 "x" (fun _ => []) (fun v => v)
          (some AddFailure.indexAdd)).1.dbTable =
        dbUpsert (⟨true, [], [], []⟩ : ManagerState).dbTable 3 ((fun _ => []) "x")) :=
  add_entry_embedding_failure_atomicity ⟨true, [], [], []⟩ 3 "x" (fun _ => [])
    (fun v => v) (some AddFailure.indexAdd) (by decide) (by decide)

/-- C7 counterexample: in the server.py copy, an exception raised inside the
bootstrap body (here injected: the body ran and raised) is swallowed — the
call returns normally with no error propagated to the caller, refuting the
claim's "re-raises the error to the caller" for that copy. -/
theorem ensure_initialized_server_swallows_counterexample :
    (ensureInitializedServer false true true).ranBootstrap = true ∧
    (ensureInitializedServer false true true).raised = none := by
  decide

/-- C7 amended: when the bootstrap body raises, both copies leave the
manager not Ready (`initialized = False`, the code's only representation of
the Failed state) and a subsequent call retries the bootstrap and can
succeed; the vector_search.py copy propagates a `VectorSearchError` to the
caller, while the server.py copy returns normally without raising. -/
theorem ensure_initialized_bootstrap_failure_handling :
    ensureInitializedVS false true true =
      ⟨false, some .initializationFailed, true⟩ ∧
    ensureInitializedServer false true true = ⟨false, none, true⟩ ∧
    ensureInitializedVS false true false = ⟨true, none, true⟩ ∧
    ensureInitializedServer false true false = ⟨true, none, true⟩ := by
  decide

/-- C8 counterexample: the source's decode (`pickle.loads`) performs no
length-versus-`dimension * 4` validation — the encoded form of the
one-element vector `[0]` is 7 bytes long, not `1 * 4`, yet decodes
successfully, so `decodeChecksLength` fails at this concrete input. -/
theorem pickle_decode_length_counterexample :
    (pickleDumps [0]).length ≠ 1 * 4 ∧
    pickleLoads (pickleDumps [0]) = some [0] ∧
    ¬ decodeChecksLength :=
  ⟨by decide, by decide,
   fun h => absurd (h (pickleDumps [0]) 1 (by decide)) (by decide)⟩

/-- Each 4-byte little-endian group reassembles to the original 32-bit
pattern. -/
lemma bytesToF32_flatten (v : List Nat) (hv : ∀ x ∈ v, x < 2 ^ 32) :
    bytesToF32 ((v.map f32le).flatten) = some v := by
  induction v with
  | nil => rfl
  | cons x t ih =>
      have hx : x < 2 ^ 32 := hv x (List.mem_cons_self x t)
      have ht : ∀ y ∈ t, y < 2 ^ 32 := fun y hy => hv y (List.mem_cons_of_mem x hy)
      have hrec : bytesToF32 (x % 256 :: x / 256 % 256 :: x / 2 ^ 16 % 256 ::
          x / 2 ^ 24 % 256 :: (t.map f32le).flatten) =
          (bytesToF32 ((t.map f32le).flatten)).map
            (fun vs => (x % 256 + 256 * (x / 256 % 256) + 2 ^ 16 * (x / 2 ^ 16 % 256) +
              2 ^ 24 * (x / 2 ^ 24 % 256)) :: vs) := rfl
      have hre : x % 256 + 256 * (x / 256 % 256) + 2 ^ 16 * (x / 2 ^ 16 % 256) +
          2 ^ 24 * (x / 2 ^ 24 % 256) = x := by omega
      simp only [List.map_cons, List.flatten_cons, f32le, List.cons_append,
        List.nil_append]
      rw [hrec, ih ht, hre]
      rfl

/-- The element payload is exactly four bytes per element. -/
lemma flatten_f32le_length (v : List Nat) :
    ((v.map f32le).flatten).length = 4 * v.length := by
  induction v with
  | nil => rfl
  | cons x t ih =>
      simp only [List.map_cons, List.flatten_cons, List.length_append, ih]
      have h4 : (f32le x).length = 4 := rfl
      rw [h4, List.length_cons]
      omega

/-- Unfolding of `pickleLoads` on a blob with a well-formed header. -/
lemma pickleLoads_cons (rest : List Nat) :
    pickleLoads (128 :: 4 :: rest) =
      if rest.getLast? = some 46 then bytesToF32 rest.dropLast else none := by
  simp [pickleLoads]

/-- C8 amended: the stored form is pickle, not a bare `dimension * 4`-byte
array: encoding a `d`-element vector yields `4 * d + 3` bytes (framing
overhead), decoding round-trips every encoded vector, and no
length-versus-dimension check exists — decode succeeds regardless of the
relation between blob length and any dimension. -/
theorem pickle_roundtrip_no_length_check (v : List Nat) (hv : ∀ x ∈ v, x < 2 ^ 32) :
    pickleLoads (pickleDumps v) = some v ∧
    (pickleDumps v).length = 4 * v.length + 3 := by
  constructor
  · rw [pickleDumps, pickleLoads_cons, List.getLast?_concat, if_pos rfl,
      List.dropLast_concat]
    exact bytesToF32_flatten v hv
  · rw [pickleDumps, List.length_cons, List.length_cons, List.length_append,
      flatten_f32le_length]
    simp only [List.length_singleton]

theorem pickle_roundtrip_no_length_check_witness :
    pickleLoads (pickleDumps [5]) = some [5] ∧
    (pickleDumps [5]).length = 4 * [5].length + 3 :=
  pickle_roundtrip_no_length_check [5] (by decide)

/-- Positions (keys) of the position map. -/
def mapKeys (m : List (Nat × Int)) : List Nat := m.map Prod.fst

/-- Entry ids (values) of the position map. -/
def mapVals (m : List (Nat × Int)) : List Int := m.map Prod.snd

/-- The structural part of the position-map invariant: the manager is
initialized, the map has exactly one binding per index position, and its
keys are exactly `0 .. ntotal - 1`. -/
def MapInv (st : ManagerState) : Prop :=
  st.initialized = true ∧
  st.entry_id_map.length = st.faiss_index.length ∧
  mapKeys st.entry_id_map = List.range st.faiss_index.length

/-- Inserting a fresh key appends the binding. -/
lemma dictInsert_fresh (k : Nat) (v : Int) :
    ∀ m : List (Nat × Int), (∀ p ∈ m, p.1 ≠ k) → dictInsert m k v = m ++ [(k, v)] := by
  intro m
  induction m with
  | nil => intro _; rfl
  | cons p t ih =>
      intro h
      simp only [dictInsert]
      rw [if_neg (h p (List.mem_cons_self p t)),
        ih (fun q hq => h q (List.mem_cons_of_mem p hq))]
      rfl

/-- The bootstrap loop `for i, entry_id in enumerate(entry_ids):
entry_id_map[i] = entry_id` over fresh keys just appends the enumerated
bindings. -/
lemma foldl_dictInsert_enumFrom :
    ∀ (l : List Int) (n : Nat) (m : List (Nat × Int)), (∀ p ∈ m, p.1 < n) →
      (List.enumFrom n l).foldl (fun acc p => dictInsert acc p.1 p.2) m =
        m ++ List.enumFrom n l := by
  intro l
  induction l with
  | nil => intro n m _; simp [List.enumFrom]
  | cons x t ih =>
      intro n m hm
      simp only [List.enumFrom, List.foldl_cons]
      rw [dictInsert_fresh n x m (fun p hp => Nat.ne_of_lt (hm p hp)),
        ih (n + 1) (m ++ [(n, x)]) ?_]
      · rw [List.append_assoc]
        rfl
      · intro p hp
        rcases List.mem_append.1 hp with h | h
        · exact Nat.lt_succ_of_lt (hm p h)
        · simp at h
          simp [h]

/-- The position map built at bootstrap is the enumeration of the
entry-id column in `ORDER BY entry_id` order. -/
lemma bootstrap_entry_id_map (table : List (Int × Vec)) (norm : Vec → Vec) :
    (bootstrap table norm).entry_id_map =
      ((table.insertionSort entryIdAsc).map (fun r => r.1)).enum := by
  show ((((table.insertionSort entryIdAsc).map (fun r => r.1)).enum).foldl
      (fun acc p => dictInsert acc p.1 p.2) []) = _
  rw [List.enum_eq_enumFrom, foldl_dictInsert_enumFrom _ 0 [] (by simp),
    List.nil_append]

/-- Bootstrapping establishes the structural position-map invariant. -/
lemma bootstrap_MapInv (table : List (Int × Vec)) (norm : Vec → Vec) :
    MapInv (bootstrap table norm) := by
  have hidx : (bootstrap table norm).faiss_index =
      (table.insertionSort entryIdAsc).map (fun r => norm r.2) := rfl
  refine ⟨rfl, ?_, ?_⟩
  · rw [bootstrap_entry_id_map, hidx, List.enum_length, List.length_map,
      List.length_map]
  · rw [bootstrap_entry_id_map, hidx]
    show List.map Prod.fst _ = _
    rw [List.enum_map_fst, List.length_map, List.length_map]

/-- The values of the bootstrap position map are the entry ids of the
durable rows, in ascending-id order. -/
lemma bootstrap_mapVals (table : List (Int × Vec)) (norm : Vec → Vec) :
    mapVals (bootstrap table norm).entry_id_map =
      (table.insertionSort entryIdAsc).map (fun r => r.1) := by
  rw [bootstrap_entry_id_map]
  show List.map Prod.snd _ = _
  rw [List.enum_map_snd]

/-- A successful `add_entry_embedding` appends one vector to the index and
one binding — at the fresh position `ntotal - 1` — to the position map. -/
lemma add_entry_embedding_success_state (st : ManagerState) (e : Int) (c : String)
    (embed : String → Vec) (norm : Vec → Vec)
    (hinit : st.initialized = true)
    (hkeys : mapKeys st.entry_id_map = List.range st.faiss_index.length) :
    (add_entry_embedding st e c embed norm none).1 =
      { st with dbTable := dbUpsert st.dbTable e (embed c),
                faiss_index := st.faiss_index ++ [norm (embed c)],
                entry_id_map := st.entry_id_map ++ [(st.faiss_index.length, e)] } := by
  have hfresh : ∀ p ∈ st.entry_id_map, p.1 ≠ st.faiss_index.length := by
    intro p hp
    have hmem : p.1 ∈ mapKeys st.entry_id_map := List.mem_map_of_mem Prod.fst hp
    rw [hkeys] at hmem
    exact Nat.ne_of_lt (List.mem_range.1 hmem)
  have hpos : (st.faiss_index ++ [norm (embed c)]).length - 1 = st.faiss_index.length := by
    simp
  simp only [add_entry_embedding, addEntryTry, hinit]
  rw [if_neg (by simp), hpos, dictInsert_fresh _ _ _ hfresh]

/-- A failed `add_entry_embedding` leaves the flag, the index and the
position map untouched (only the durable table may have been written). -/
lemma add_entry_embedding_failed_state (st : ManagerState) (e : Int) (c : String)
    (embed : String → Vec) (norm : Vec → Vec) (f : AddFailure) :
    (add_entry_embedding st e c embed norm (some f)).1.initialized = st.initialized ∧
    (add_entry_embedding st e c embed norm (some f)).1.faiss_index = st.faiss_index ∧
    (add_entry_embedding st e c embed norm (some f)).1.entry_id_map = st.entry_id_map := by
  unfold add_entry_embedding
  split
  · exact ⟨rfl, rfl, rfl⟩
  · cases f <;> exact ⟨rfl, rfl, rfl⟩

/-- Running any operation sequence from a state satisfying the structural
invariant preserves it, and keeps the map values duplicate-free as long as
the pending ingest ids avoid the values already present. -/
lemma runOps_preserves (embed : String → Vec) (norm : Vec → Vec) :
    ∀ (ops : List VSOp) (st : ManagerState),
      MapInv st →
      (mapVals st.entry_id_map ++ ingestIds ops).Nodup →
      MapInv (runOps embed norm st ops) ∧
      (mapVals (runOps embed norm st ops).entry_id_map).Nodup := by
  intro ops
  induction ops with
  | nil =>
      intro st hinv hnd
      exact ⟨hinv, by simpa [ingestIds] using hnd⟩
  | cons op rest ih =>
      intro st hinv hnd
      cases op with
      | search q l t => exact ih st hinv (by simpa [ingestIds] using hnd)
      | ingest e c f =>
          cases f with
          | none =>
              have hst' := add_entry_embedding_success_state st e c embed norm
                hinv.1 hinv.2.2
              show MapInv (runOps embed norm (add_entry_embedding st e c embed norm none).1 rest) ∧
                (mapVals (runOps embed norm
                  (add_entry_embedding st e c embed norm none).1 rest).entry_id_map).Nodup
              rw [hst']
              apply ih
              · refine ⟨hinv.1, ?_, ?_⟩
                · simp only [List.length_append, List.length_singleton]
                  rw [hinv.2.1]
                · show mapKeys (st.entry_id_map ++ [(st.faiss_index.length, e)]) = _
                  unfold mapKeys
                  rw [List.map_append, List.length_append]
                  show List.map Prod.fst st.entry_id_map ++ [st.faiss_index.length] = _
                  rw [← mapKeys, hinv.2.2, List.length_singleton, ← List.range_succ]
              · show (mapVals (st.entry_id_map ++ [(st.faiss_index.length, e)]) ++
                  ingestIds rest).Nodup
                unfold mapVals
                rw [List.map_append]
                show (List.map Prod.snd st.entry_id_map ++ [e] ++ ingestIds rest).Nodup
                rw [List.append_assoc]
                simpa [mapVals, ingestIds] using hnd
          | some ff =>
              have hst' := add_entry_embedding_failed_state st e c embed norm ff
              show MapInv (runOps embed norm
                (add_entry_embedding st e c embed norm (some ff)).1 rest) ∧ _
              refine ih _ ⟨?_, ?_, ?_⟩ ?_
              · rw [hst'.1, hinv.1]
              · rw [hst'.2.1, hst'.2.2, hinv.2.1]
              · rw [hst'.2.1, hst'.2.2, hinv.2.2]
              · rw [hst'.2.2]
                refine List.Nodup.sublist ?_ hnd
                refine List.Sublist.append_left ?_ _
                exact List.sublist_cons_self e (ingestIds rest)

/-- Running any operation sequence preserves the structural invariant alone,
with no assumption on entry ids: even a duplicate ingest appends one index
vector and one fresh-position binding. -/
lemma runOps_MapInv (embed : String → Vec) (norm : Vec → Vec) :
    ∀ (ops : List VSOp) (st : ManagerState), MapInv st →
      MapInv (runOps embed norm st ops) := by
  intro ops
  induction ops with
  | nil => intro st hinv; exact hinv
  | cons op rest ih =>
      intro st hinv
      cases op with
      | search q l t => exact ih st hinv
      | ingest e c f =>
          cases f with
          | none =>
              have hst' := add_entry_embedding_success_state st e c embed norm
                hinv.1 hinv.2.2
              show MapInv (runOps embed norm
                (add_entry_embedding st e c embed norm none).1 rest)
              rw [hst']
              apply ih
              refine ⟨hinv.1, ?_, ?_⟩
              · simp only [List.length_append, List.length_singleton]
                rw [hinv.2.1]
              · show mapKeys (st.entry_id_map ++ [(st.faiss_index.length, e)]) = _
                unfold mapKeys
                rw [List.map_append, List.length_append]
                show List.map Prod.fst st.entry_id_map ++ [st.faiss_index.length] = _
                rw [← mapKeys, hinv.2.2, List.length_singleton, ← List.range_succ]
          | some ff =>
              have hst' := add_entry_embedding_failed_state st e c embed norm ff
              show MapInv (runOps embed norm
                (add_entry_embedding st e c embed norm (some ff)).1 rest)
              apply ih
              refine ⟨?_, ?_, ?_⟩
              · rw [hst'.1, hinv.1]
              · rw [hst'.2.1, hst'.2.2, hinv.2.1]
              · rw [hst'.2.1, hst'.2.2, hinv.2.2]

/-- C5 counterexample: ingesting the same entry id twice (the second call
models re-embedding the same journal entry) yields two distinct positions
both mapped to that id — the position map is not injective, hence not a
bijection onto entry ids, even though every call succeeded. -/
theorem position_map_bijection_counterexample :
    (runOps (fun _ => []) (fun v => v) (bootstrap [] (fun v => v))
        [.ingest 7 "a" none, .ingest 7 "b" none]).entry_id_map = [(0, 7), (1, 7)] ∧
    ¬ (mapVals (runOps (fun _ => []) (fun v => v) (bootstrap [] (fun v => v))
        [.ingest 7 "a" none, .ingest 7 "b" none]).entry_id_map).Nodup := by
  refine ⟨by decide, ?_⟩
  intro h
  have : ((7 : Int) :: [7]).Nodup := h
  simp at this

/-- C5 amended: after bootstrap and any sequence of ingests and searches,
the position map unconditionally has exactly one binding per index position
with key set `0 .. ntotal - 1` and `size == ntotal` — also in the
duplicate-ingest case; it is additionally injective (a bijection from
positions onto entry ids) provided the bootstrap-loaded and ingested entry
ids are pairwise distinct — the property the claim asserts unconditionally
fails exactly when an entry id is embedded twice. -/
theorem position_map_bijection_of_distinct_ids (table : List (Int × Vec))
    (embed : String → Vec) (norm : Vec → Vec) (ops : List VSOp) :
    (runOps embed norm (bootstrap table norm) ops).entry_id_map.length =
      (runOps embed norm (bootstrap table norm) ops).faiss_index.length ∧
    mapKeys (runOps embed norm (bootstrap table norm) ops).entry_id_map =
      List.range (runOps embed norm (bootstrap table norm) ops).faiss_index.length ∧
    (((table.map (fun r => r.1)) ++ ingestIds ops).Nodup →
      (mapVals (runOps embed norm (bootstrap table norm) ops).entry_id_map).Nodup) := by
  have hmi := runOps_MapInv embed norm ops (bootstrap table norm)
    (bootstrap_MapInv table norm)
  refine ⟨hmi.2.1, hmi.2.2, fun hids => ?_⟩
  have hperm : ((table.map (fun r => r.1)) ++ ingestIds ops).Perm
      (mapVals (bootstrap table norm).entry_id_map ++ ingestIds ops) := by
    rw [bootstrap_mapVals]
    exact List.Perm.append_right _
      (List.Perm.map _ (List.perm_insertionSort entryIdAsc table)).symm
  exact (runOps_preserves embed norm ops (bootstrap table norm)
    (bootstrap_MapInv table norm) (hperm.nodup hids)).2

theorem position_map_bijection_of_distinct_ids_witness :
    (runOps (fun _ => []) (fun v => v) (bootstrap [(1, [])] (fun v => v))
        [.ingest 2 "a" none]).entry_id_map.length =
      (runOps (fun _ => []) (fun v => v) (bootstrap [(1, [])] (fun v => v))
        [.ingest 2 "a" none]).faiss_index.length ∧
    mapKeys (runOps (fun _ => []) (fun v => v) (bootstrap [(1, [])] (fun v => v))
        [.ingest 2 "a" none]).entry_id_map =
      List.range (runOps (fun _ => []) (fun v => v) (bootstrap [(1, [])] (fun v => v))
        [.ingest 2 "a" none]).faiss_index.length ∧
    (mapVals (runOps (fun _ => []) (fun v => v) (bootstrap [(1, [])] (fun v => v))
        [.ingest 2 "a" none]).entry_id_map).Nodup :=
  ⟨(position_map_bijection_of_distinct_ids [(1, [])] (fun _ => []) (fun v => v)
      [.ingest 2 "a" none]).1,
   (position_map_bijection_of_distinct_ids [(1, [])] (fun _ => []) (fun v => v)
      [.ingest 2 "a" none]).2.1,
   (position_map_bijection_of_distinct_ids [(1, [])] (fun _ => []) (fun v => v)
      [.ingest 2 "a" none]).2.2 (by decide)⟩

lemma setPC_pcs_self (s : LoopState) (i : Nat) (pc : TaskPC) :
    (setPC s i pc).pcs i = pc := by
  simp [setPC]

lemma setPC_pcs_ne (s : LoopState) (i j : Nat) (pc : TaskPC) (h : j ≠ i) :
    (setPC s i pc).pcs j = s.pcs j := by
  simp [setPC, h]

/-- Inductive invariant of the concurrent `_ensure_initialized` model (with
the module available and the bootstrap body succeeding): the bootstrap ran
at most once; `initialized` is set exactly when it has run; only the lock
holder is between lock acquisition and release (so at most one task is ever
mid-bootstrap); a task mid-bootstrap saw `initialized` false under the
lock; and a task can only have returned once `initialized` was set. -/
structure LoopInv (s : LoopState) : Prop where
  avail_true : s.avail = true
  boot_le : s.bootCount ≤ 1
  init_iff : s.initialized = true ↔ s.bootCount = 1
  holder_of_crit : ∀ i, s.pcs i = .critical ∨ s.pcs i = .booting → s.lockHolder = some i
  boot_not_init : ∀ i, s.pcs i = .booting → s.initialized = false
  done_init : ∀ i, s.pcs i = .done → s.initialized = true

lemma loopInv_step (s : LoopState) (i : Nat) (h : LoopInv s) : LoopInv (step s i) := by
  cases hpc : s.pcs i with
  | start =>
      have hs : step s i =
          if s.initialized then setPC s i .done else setPC s i .waitLock := by
        unfold step
        rw [hpc]
      rw [hs]
      by_cases hi : s.initialized = true
      · rw [if_pos hi]
        refine ⟨h.avail_true, h.boot_le, h.init_iff, ?_, ?_, ?_⟩ <;> intro j hj
        · by_cases hji : j = i
          · subst hji
            rw [setPC_pcs_self] at hj
            rcases hj with hj | hj <;> exact absurd hj (by simp)
          · rw [setPC_pcs_ne s i j _ hji] at hj
            exact h.holder_of_crit j hj
        · by_cases hji : j = i
          · subst hji
            rw [setPC_pcs_self] at hj
            exact absurd hj (by simp)
          · rw [setPC_pcs_ne s i j _ hji] at hj
            exact h.boot_not_init j hj
        · by_cases hji : j = i
          · exact hi
          · rw [setPC_pcs_ne s i j _ hji] at hj
            exact h.done_init j hj
      · rw [if_neg hi]
        refine ⟨h.avail_true, h.boot_le, h.init_iff, ?_, ?_, ?_⟩ <;> intro j hj
        · by_cases hji : j = i
          · subst hji
            rw [setPC_pcs_self] at hj
            rcases hj with hj | hj <;> exact absurd hj (by simp)
          · rw [setPC_pcs_ne s i j _ hji] at hj
            exact h.holder_of_crit j hj
        · by_cases hji : j = i
          · subst hji
            rw [setPC_pcs_self] at hj
            exact absurd hj (by simp)
          · rw [setPC_pcs_ne s i j _ hji] at hj
            exact h.boot_not_init j hj
        · by_cases hji : j = i
          · subst hji
            rw [setPC_pcs_self] at hj
            exact absurd hj (by simp)
          · rw [setPC_pcs_ne s i j _ hji] at hj
            exact h.done_init j hj
  | waitLock =>
      cases hl : s.lockHolder with
      | none =>
          have hs : step s i =
              { setPC s i .critical with lockHolder := some i } := by
            unfold step
            rw [hpc, hl]
          rw [hs]
          refine ⟨h.avail_true, h.boot_le, h.init_iff, ?_, ?_, ?_⟩ <;> intro j hj
          · have hj2 : (setPC s i TaskPC.critical).pcs j = TaskPC.critical ∨
                (setPC s i TaskPC.critical).pcs j = TaskPC.booting := hj
            by_cases hji : j = i
            · subst hji
              rfl
            · rw [setPC_pcs_ne s i j _ hji] at hj2
              have hcontra := h.holder_of_crit j hj2
              rw [hl] at hcontra
              exact absurd hcontra (by simp)
          · have hj2 : (setPC s i TaskPC.critical).pcs j = TaskPC.booting := hj
            by_cases hji : j = i
            · subst hji
              rw [setPC_pcs_self] at hj2
              exact absurd hj2 (by simp)
            · rw [setPC_pcs_ne s i j _ hji] at hj2
              exact h.boot_not_init j hj2
          · have hj2 : (setPC s i TaskPC.critical).pcs j = TaskPC.done := hj
            by_cases hji : j = i
            · subst hji
              rw [setPC_pcs_self] at hj2
              exact absurd hj2 (by simp)
            · rw [setPC_pcs_ne s i j _ hji] at hj2
              exact h.done_init j hj2
      | some k =>
          have hs : step s i = s := by
            unfold step
            rw [hpc, hl]
          rw [hs]
          exact h
  | critical =>
      have hheld : s.lockHolder = some i := h.holder_of_crit i (Or.inl hpc)
      have hs : step s i =
          if s.initialized then { setPC s i .done with lockHolder := none }
          else if s.avail then setPC s i .booting
          else { setPC s i .done with lockHolder := none } := by
        unfold step
        rw [hpc]
      rw [hs]
      by_cases hi : s.initialized = true
      · rw [if_pos hi]
        refine ⟨h.avail_true, h.boot_le, h.init_iff, ?_, ?_, ?_⟩ <;> intro j hj
        · have hj2 : (setPC s i TaskPC.done).pcs j = TaskPC.critical ∨
              (setPC s i TaskPC.done).pcs j = TaskPC.booting := hj
          by_cases hji : j = i
          · subst hji
            rw [setPC_pcs_self] at hj2
            rcases hj2 with hj2 | hj2 <;> exact absurd hj2 (by simp)
          · rw [setPC_pcs_ne s i j _ hji] at hj2
            have hcontra := h.holder_of_crit j hj2
            rw [hheld] at hcontra
            exact absurd (Option.some.inj hcontra) (fun hij => hji hij.symm)
        · have hj2 : (setPC s i TaskPC.done).pcs j = TaskPC.booting := hj
          by_cases hji : j = i
          · subst hji
            rw [setPC_pcs_self] at hj2
            exact absurd hj2 (by simp)
          · rw [setPC_pcs_ne s i j _ hji] at hj2
            exact h.boot_not_init j hj2
        · exact hi
      · rw [if_neg hi, h.avail_true, if_pos rfl]
        have hif : s.initialized = false := by
          revert hi
          cases s.initialized <;> simp
        refine ⟨h.avail_true, h.boot_le, h.init_iff, ?_, ?_, ?_⟩ <;> intro j hj
        · by_cases hji : j = i
          · subst hji
            exact hheld
          · rw [setPC_pcs_ne s i j _ hji] at hj
            exact h.holder_of_crit j hj
        · exact hif
        · by_cases hji : j = i
          · subst hji
            rw [setPC_pcs_self] at hj
            exact absurd hj (by simp)
          · rw [setPC_pcs_ne s i j _ hji] at hj
            exact h.done_init j hj
  | booting =>
      have hheld : s.lockHolder = some i := h.holder_of_crit i (Or.inr hpc)
      have hif : s.initialized = false := h.boot_not_init i hpc
      have hb0 : s.bootCount = 0 := by
        have hne : ¬ s.bootCount = 1 := by
          intro hb
          have hinit := h.init_iff.mpr hb
          rw [hif] at hinit
          exact absurd hinit (by simp)
        have := h.boot_le
        omega
      have hs : step s i = { setPC s i .done with
          lockHolder := none, initialized := true, bootCount := s.bootCount + 1 } := by
        unfold step
        rw [hpc]
      rw [hs]
      refine ⟨h.avail_true, ?_, ?_, ?_, ?_, ?_⟩
      · show s.bootCount + 1 ≤ 1
        omega
      · show (true = true) ↔ s.bootCount + 1 = 1
        rw [hb0]
        simp
      · intro j hj
        have hj2 : (setPC s i TaskPC.done).pcs j = TaskPC.critical ∨
            (setPC s i TaskPC.done).pcs j = TaskPC.booting := hj
        by_cases hji : j = i
        · subst hji
          rw [setPC_pcs_self] at hj2
          rcases hj2 with hj2 | hj2 <;> exact absurd hj2 (by simp)
        · rw [setPC_pcs_ne s i j _ hji] at hj2
          have hcontra := h.holder_of_crit j hj2
          rw [hheld] at hcontra
          exact absurd (Option.some.inj hcontra) (fun hij => hji hij.symm)
      · intro j hj
        have hj2 : (setPC s i TaskPC.done).pcs j = TaskPC.booting := hj
        by_cases hji : j = i
        · subst hji
          rw [setPC_pcs_self] at hj2
          exact absurd hj2 (by simp)
        · rw [setPC_pcs_ne s i j _ hji] at hj2
          have hcontra := h.holder_of_crit j (Or.inr hj2)
          rw [hheld] at hcontra
          exact absurd (Option.some.inj hcontra) (fun hij => hji hij.symm)
      · intro j _
        rfl
  | done =>
      have hs : step s i = s := by
        unfold step
        rw [hpc]
      rw [hs]
      exact h


lemma loopInv_runSched : ∀ (sched : List Nat) (s : LoopState),
    LoopInv s → LoopInv (runSched s sched)
  | [], _, h => h
  | i :: rest, s, h => loopInv_runSched rest (step s i) (loopInv_step s i h)

lemma initLoop_inv : LoopInv (initLoop true) := by
  refine ⟨rfl, by simp [initLoop], by simp [initLoop], ?_, ?_, ?_⟩ <;>
    intro j hj <;> revert hj <;> simp [initLoop]

/-- C1: under any number of concurrent `_ensure_initialized` callers and any
cooperative schedule (starting from a fresh manager with the dependencies
available and a succeeding bootstrap body), the bootstrap body executes at
most once overall — a caller that acquires the lock while another caller's
bootstrap is in flight waits for that bootstrap instead of starting a second
one, and a caller that finds the flag set returns without entering it — and
by the time any caller has returned it has executed exactly once. -/
theorem ensure_initialized_single_flight (sched : List Nat) (i : Nat) :
    (runSched (initLoop true) sched).bootCount ≤ 1 ∧
    ((runSched (initLoop true) sched).pcs i = .done →
      (runSched (initLoop true) sched).bootCount = 1) := by
  have h := loopInv_runSched sched (initLoop true) initLoop_inv
  exact ⟨h.boot_le, fun hdone => h.init_iff.mp (h.done_init i hdone)⟩

theorem ensure_initialized_single_flight_witness :
    (runSched (initLoop true) [0, 1, 0, 1, 0, 1, 0, 1, 1]).bootCount = 1 :=
  (ensure_initialized_single_flight [0, 1, 0, 1, 0, 1, 0, 1, 1] 1).2 (by decide)

/-- In a score-descending list, entries meeting the threshold precede all
entries missing it, so taking `k ≥ l` elements keeps at least `l` qualifying
ones whenever the whole list has at least `l`. -/
lemma countP_take_of_sorted {α : Type} (threshold : ℚ) :
    ∀ (S : List (α × ℚ)) (k l : Nat), List.Sorted scoreDesc S → l ≤ k →
      l ≤ List.countP (fun p => decide (threshold ≤ p.2)) S →
      l ≤ List.countP (fun p => decide (threshold ≤ p.2)) (S.take k) := by
  intro S
  induction S with
  | nil =>
      intro k l _ _ hc
      simpa using hc
  | cons x t ih =>
      intro k l hsorted hlk hc
      cases l with
      | zero => exact Nat.zero_le _
      | succ l' =>
          cases k with
          | zero => omega
          | succ k' =>
              rw [List.take_succ_cons]
              by_cases hx : decide (threshold ≤ x.2) = true
              · rw [List.countP_cons_of_pos
                  (fun p : α × ℚ => decide (threshold ≤ p.2)) _ hx] at hc ⊢
                have hih := ih k' l' (List.sorted_cons.1 hsorted).2 (by omega) (by omega)
                omega
              · have hxlt : ¬ threshold ≤ x.2 := by simpa using hx
                have ht0 : List.countP (fun p => decide (threshold ≤ p.2)) t = 0 := by
                  rw [List.countP_eq_zero]
                  intro a ha
                  have hle : a.2 ≤ x.2 := (List.sorted_cons.1 hsorted).1 a ha
                  simp only [decide_eq_true_eq]
                  intro hta
                  exact hxlt (le_trans hta hle)
                rw [List.countP_cons_of_neg
                  (fun p : α × ℚ => decide (threshold ≤ p.2)) _ hx, ht0] at hc
                omega

/-- When every listed position maps to a truthy entry id, the result loop
keeps exactly the hits that meet the threshold. -/
lemma filterMap_entry_count (st : ManagerState) (threshold : ℚ) (L : List (Nat × ℚ))
    (hmap : ∀ p ∈ L, (dictGet st.entry_id_map p.1).getD 0 ≠ 0) :
    (L.filterMap (fun p =>
      if threshold ≤ p.2 then
        match dictGet st.entry_id_map p.1 with
        | some e => if e ≠ 0 then some (e, p.2) else none
        | none => none
      else none)).length = List.countP (fun p => decide (threshold ≤ p.2)) L := by
  rw [List.length_filterMap_eq_countP]
  apply List.countP_congr
  intro p hp
  by_cases hth : threshold ≤ p.2
  · have hgd := hmap p hp
    cases hdg : dictGet st.entry_id_map p.1 with
    | none =>
        rw [hdg] at hgd
        exact absurd rfl hgd
    | some e =>
        rw [hdg] at hgd
        have hne : e ≠ 0 := hgd
        show ((if threshold ≤ p.2 then
            (if e ≠ 0 then some (e, p.2) else none)
          else none)).isSome = true ↔ decide (threshold ≤ p.2) = true
        rw [if_pos hth, if_pos hne]
        simp [hth]
  · have hfp : (if threshold ≤ p.2 then
        match dictGet st.entry_id_map p.1 with
        | some e => if e ≠ 0 then some (e, p.2) else none
        | none => none
      else none) = none := if_neg hth
    rw [hfp]
    simp [hth]

/-- C3: `semantic_search` asks the index for `min(limit * 2, ntotal)`
candidates, and that over-fetch suffices: on an initialized index in which
every position maps to a nonzero entry id, if at least `limit` stored
vectors score at or above `similarity_threshold` against the normalized
query, the returned list has exactly `limit` entries — threshold filtering
never starves the result set below `limit` when enough qualifying neighbors
exist. -/
theorem semantic_search_overfetch_sufficient (st : ManagerState)
    (embed : String → Vec) (norm : Vec → Vec) (query : String) (limit : Nat)
    (threshold : ℚ)
    (hinit : st.initialized = true)
    (hmap : ∀ i, i < st.faiss_index.length →
      (dictGet st.entry_id_map i).getD 0 ≠ 0)
    (hcount : limit ≤ List.countP (fun a => decide (threshold ≤ a))
      (st.faiss_index.map (ipScore (norm (embed query))))) :
    (semantic_search st embed norm query limit threshold false).length = limit := by
  have hslen : (st.faiss_index.map (ipScore (norm (embed query)))).length =
      st.faiss_index.length := List.length_map _ _
  have hln : limit ≤ st.faiss_index.length := by
    have hcl := List.countP_le_length (fun a => decide (threshold ≤ a))
      (l := st.faiss_index.map (ipScore (norm (embed query))))
    omega
  by_cases hn : st.faiss_index.length = 0
  · have hl0 : limit = 0 := by omega
    have hempty : semantic_search st embed norm query limit threshold false = [] := by
      simp only [semantic_search]
      rw [if_pos (Or.inr hn)]
    rw [hempty, hl0]
    rfl
  · have hcond : ¬ (st.initialized = false ∨ st.faiss_index.length = 0) := by
      simp [hinit, hn]
    have hmain : semantic_search st embed norm query limit threshold false =
        (((faissSearch st.faiss_index (norm (embed query))
            (min (limit * 2) st.faiss_index.length)).filterMap (fun p =>
          if threshold ≤ p.2 then
            match dictGet st.entry_id_map p.1 with
            | some e => if e ≠ 0 then some (e, p.2) else none
            | none => none
          else none)).insertionSort scoreDesc).take limit := by
      simp only [semantic_search]
      rw [if_neg hcond, if_neg (by simp)]
    have hfs : faissSearch st.faiss_index (norm (embed query))
        (min (limit * 2) st.faiss_index.length) =
        (((st.faiss_index.map (ipScore (norm (embed query)))).enum).insertionSort
          scoreDesc).take (min (limit * 2) st.faiss_index.length) := rfl
    -- positions appearing in the hit list are valid index positions
    have hmem_lt : ∀ p ∈ (((st.faiss_index.map
        (ipScore (norm (embed query)))).enum).insertionSort scoreDesc).take
          (min (limit * 2) st.faiss_index.length), p.1 < st.faiss_index.length := by
      intro p hp
      have hp1 : p ∈ (st.faiss_index.map (ipScore (norm (embed query)))).enum :=
        (List.perm_insertionSort scoreDesc _).subset (List.mem_of_mem_take hp)
      have hp2 : p.1 ∈ List.map Prod.fst
          (st.faiss_index.map (ipScore (norm (embed query)))).enum :=
        List.mem_map_of_mem Prod.fst hp1
      rw [List.enum_map_fst] at hp2
      have hp3 := List.mem_range.1 hp2
      omega
    -- the filtered result keeps at least `limit` hits
    have hsorted : List.Sorted scoreDesc
        (((st.faiss_index.map (ipScore (norm (embed query)))).enum).insertionSort
          scoreDesc) :=
      List.sorted_insertionSort scoreDesc _
    have hcntS : limit ≤ List.countP (fun p => decide (threshold ≤ p.2))
        (((st.faiss_index.map (ipScore (norm (embed query)))).enum).insertionSort
          scoreDesc) := by
      rw [List.Perm.countP_eq _ (List.perm_insertionSort scoreDesc _)]
      have henum : List.countP (fun p => decide (threshold ≤ p.2))
          ((st.faiss_index.map (ipScore (norm (embed query)))).enum) =
          List.countP (fun a => decide (threshold ≤ a))
            (st.faiss_index.map (ipScore (norm (embed query)))) := by
        conv_rhs => rw [← List.enum_map_snd
          (st.faiss_index.map (ipScore (norm (embed query))))]
        rw [List.countP_map]
        rfl
      rw [henum]
      exact hcount
    have hkge : limit ≤ min (limit * 2) st.faiss_index.length := by
      refine le_min (by omega) hln
    have hcnt_take : limit ≤ List.countP (fun p => decide (threshold ≤ p.2))
        ((((st.faiss_index.map (ipScore (norm (embed query)))).enum).insertionSort
          scoreDesc).take (min (limit * 2) st.faiss_index.length)) :=
      countP_take_of_sorted threshold _ _ limit hsorted hkge hcntS
    have hflen : ((faissSearch st.faiss_index (norm (embed query))
        (min (limit * 2) st.faiss_index.length)).filterMap (fun p =>
          if threshold ≤ p.2 then
            match dictGet st.entry_id_map p.1 with
            | some e => if e ≠ 0 then some (e, p.2) else none
            | none => none
          else none)).length = List.countP (fun p => decide (threshold ≤ p.2))
        ((((st.faiss_index.map (ipScore (norm (embed query)))).enum).insertionSort
          scoreDesc).take (min (limit * 2) st.faiss_index.length)) := by
      rw [hfs]
      exact filterMap_entry_count st threshold _ (fun p hp => hmap p.1 (hmem_lt p hp))
    rw [hmain, List.length_take,
      (List.perm_insertionSort scoreDesc _).length_eq, hflen]
    omega

theorem semantic_search_overfetch_sufficient_witness :
    (semantic_search ⟨true, [[], []], [(0, 1), (1, 2)], []⟩ (fun _ => []) (fun v => v)
      "q" 1 0 false).length = 1 :=
  semantic_search_overfetch_sufficient ⟨true, [[], []], [(0, 1), (1, 2)], []⟩
    (fun _ => []) (fun v => v) "q" 1 0 (by decide) (by decide) (by decide)

end MemoryJournal
